import Mathlib

/-!
Verification of the Crosswordle custom checker
(`recursive_crosswordle_backtracker.py`).

The Python program is shallowly embedded: each Python function becomes a
Lean definition of the same name, lists stay lists, the hash table becomes
a function `Word × Nat → Option (List Word)` (a key being absent is
modelled by `none`), and Python's implicit `None` returns of the
backtracker become `Option`.  Python's in-place loops over
`enumerate(...)` become structural recursions / folds over `List.enum`;
out-of-range indexing, which would raise in Python, is modelled with `getD`
and ruled out by the length hypotheses of the theorems (every word of the
program's domain has length 5).
-/

/-- A word: a sequence of letters (length 5 throughout the program's domain). -/
abbrev Word := List Char

/-- The hash table `table[(sol, coln)] = [guesses]`; an absent key is `none`. -/
abbrev Table := Word × Nat → Option (List Word)

/-! ## Basic scripts: the ternary codec -/

/-- Accumulator loop of `ternarytonum`:
`for power, n in enumerate(t[::-1]): num += n*(3**power)`. -/
def tern_acc : List Nat → Nat → Nat → Nat
  | [], _, num => num
  | n :: rest, power, num => tern_acc rest (power + 1) (num + n * 3 ^ power)

/-- `ternarytonum(t)`: convert a ternary list, e.g. `[2, 2, 1, 2, 0]`,
to a decimal number, least-significant digit last. -/
def ternarytonum (t : List Nat) : Nat :=
  tern_acc t.reverse 0 0

/-- The `while x > 0: x, r = divmod(x, 3); nums.append(r)` loop of
`numtoternary`, with an explicit bound on the number of iterations
(`x` itself always suffices since `x` strictly decreases). -/
def numto_digits : Nat → Nat → List Nat
  | 0, _ => []
  | fuel + 1, x => if x = 0 then [] else x % 3 :: numto_digits fuel (x / 3)

/-- `numtoternary(x)`: convert a decimal number, e.g. `134`, to a ternary
list, e.g. `[1, 1, 2, 2, 2]`: collect digits least-significant first,
pad with zeros to length 5, then reverse. -/
def numtoternary (x : Nat) : List Nat :=
  (numto_digits x x ++ List.replicate (5 - (numto_digits x x).length) 0).reverse

/-! ## The colouring engine -/

/-- Pass 1 of `wordle_colour`: walk `solution` (and `guess`) position by
position; an exact match gets colour 2, otherwise the solution letter is
appended to `observed`.  Returns the colour row and the observed letters. -/
def colour_pass1 : List Char → List Char → List Nat × List Char
  | g :: gs, s :: ss =>
    let rest := colour_pass1 gs ss
    if g = s then (2 :: rest.1, rest.2) else (0 :: rest.1, s :: rest.2)
  | _, _ => ([], [])

/-- Pass 2 of `wordle_colour`: walk `guess` left to right together with the
pass-1 colours and the matching solution letters; when the letter is in
`observed` and its tile is not already 2, remove one occurrence and (when
the letter differs from the solution letter there) colour the tile 1. -/
def colour_pass2 : List Char → List Char → List Nat → List Char → List Nat
  | g :: gs, s :: ss, c :: cs, observed =>
    if g ∈ observed ∧ c ≠ 2 then
      let obs := observed.erase g
      (if s ≠ g then 1 else c) :: colour_pass2 gs ss cs obs
    else
      c :: colour_pass2 gs ss cs observed
  | _, _, cs, _ => cs

/-- `wordle_colour(guess, solution)`: the ternary wordle colouring of a
guess under a given solution.  Green = 2, Yellow = 1, Grey = 0. -/
def wordle_colour (guess solution : List Char) : List Nat :=
  let p1 := colour_pass1 guess solution
  colour_pass2 guess solution p1.1 p1.2

/-! ## The two-pass reference algorithm, written from the spec's words -/

/-- Modelled from the spec: pass 1 of the reference algorithm — "marks
exact positional matches GREEN and collects the multiset of unmatched
solution letters (observed)". -/
def refPass1 : List Char → List Char → List Nat × List Char
  | g :: gs, s :: ss =>
    let rest := refPass1 gs ss
    if g = s then (2 :: rest.1, rest.2) else (0 :: rest.1, s :: rest.2)
  | _, _ => ([], [])

/-- Modelled from the spec: pass 2 of the reference algorithm — "scans the
guess left to right; for each non-GREEN position, if the letter is present
in the remaining observed multiset, mark YELLOW and remove one occurrence
from that multiset; otherwise GREY". -/
def refPass2 : List Char → List Nat → List Char → List Nat
  | g :: gs, c :: cs, observed =>
    if c = 2 then 2 :: refPass2 gs cs observed
    else if g ∈ observed then 1 :: refPass2 gs cs (observed.erase g)
    else 0 :: refPass2 gs cs observed
  | _, _, _ => []

/-- Modelled from the spec: the full two-pass reference colouring. -/
def refColour (guess solution : List Char) : List Nat :=
  let p1 := refPass1 guess solution
  refPass2 guess p1.1 p1.2

/-! ## Helper lemmas for the colouring engine -/

theorem refPass1_eq_pass1 : ∀ gs ss, refPass1 gs ss = colour_pass1 gs ss := by
  intro gs
  induction gs with
  | nil => intro ss; cases ss <;> rfl
  | cons g gs ih =>
    intro ss
    cases ss with
    | nil => rfl
    | cons s ss => simp [refPass1, colour_pass1, ih]

theorem pass2_eq_refPass2 : ∀ gs ss obs, gs.length = ss.length →
    colour_pass2 gs ss (colour_pass1 gs ss).1 obs
      = refPass2 gs (colour_pass1 gs ss).1 obs := by
  intro gs
  induction gs with
  | nil =>
    intro ss obs h
    cases ss with
    | nil => rfl
    | cons s ss => simp at h
  | cons g gs ih =>
    intro ss obs h
    cases ss with
    | nil => simp at h
    | cons s ss =>
      simp only [List.length_cons, Nat.add_right_cancel_iff] at h
      by_cases hgs : g = s
      · simp [colour_pass1, colour_pass2, refPass2, hgs, ih ss obs h]
      · simp only [colour_pass1, hgs, if_false]
        by_cases hmem : g ∈ obs
        · simp [colour_pass2, refPass2, hgs, hmem, Ne.symm hgs, ih ss _ h]
        · simp [colour_pass2, refPass2, hgs, hmem, ih ss obs h]

theorem pass1_self : ∀ w : List Char, colour_pass1 w w = (List.replicate w.length 2, []) := by
  intro w
  induction w with
  | nil => rfl
  | cons a w ih => simp [colour_pass1, ih, List.replicate]

theorem pass2_green : ∀ (w s : List Char) obs,
    colour_pass2 w s (List.replicate w.length 2) obs = List.replicate w.length 2 := by
  intro w
  induction w with
  | nil => intro s obs; cases s <;> rfl
  | cons a w ih =>
    intro s obs
    cases s with
    | nil => rfl
    | cons b s => simp [colour_pass2, List.replicate, ih]

/-! ## Helper lemmas for the ternary codec -/

theorem numto_digits_lt3 : ∀ fuel x : Nat, ∀ d ∈ numto_digits fuel x, d < 3 := by
  intro fuel
  induction fuel with
  | zero => intro x d hd; simp [numto_digits] at hd
  | succ fuel ih =>
    intro x d hd
    by_cases hx : x = 0
    · simp [numto_digits, hx] at hd
    · simp only [numto_digits, hx, if_false, List.mem_cons] at hd
      rcases hd with h | h
      · omega
      · exact ih _ d h

theorem numto_digits_length : ∀ fuel x k : Nat, x < 3 ^ k →
    (numto_digits fuel x).length ≤ k := by
  intro fuel
  induction fuel with
  | zero => intro x k _; simp [numto_digits]
  | succ fuel ih =>
    intro x k hx
    by_cases hx0 : x = 0
    · simp [numto_digits, hx0]
    · simp only [numto_digits, hx0, if_false, List.length_cons]
      match k with
      | 0 => omega
      | k + 1 =>
        have : x / 3 < 3 ^ k := by
          have h3 : 3 ^ (k + 1) = 3 ^ k * 3 := by ring
          rw [Nat.div_lt_iff_lt_mul (by norm_num)]
          omega
        have := ih (x / 3) k this
        omega

theorem numtoternary_length (n : Nat) (hn : n < 243) : (numtoternary n).length = 5 := by
  have := numto_digits_length n n 5 (by norm_num; omega)
  simp [numtoternary]
  omega

theorem numtoternary_digits_lt3 (n : Nat) : ∀ d ∈ numtoternary n, d < 3 := by
  intro d hd
  simp only [numtoternary, List.mem_reverse, List.mem_append, List.mem_replicate] at hd
  rcases hd with h | h
  · exact numto_digits_lt3 n n d h
  · omega

/-! ## Claim C1: the colouring engine matches the two-pass reference -/

/-- C1: for every pair of (length-5) words, `wordle_colour guess solution`
is exactly the colouring of the two-pass reference algorithm of the spec
(`refColour`), and `wordle_colour w w` is all-GREEN for every word `w`. -/
theorem C1_wordle_colour_matches_reference :
    (∀ guess solution : Word, guess.length = 5 → solution.length = 5 →
      wordle_colour guess solution = refColour guess solution) ∧
    (∀ w : Word, w.length = 5 → wordle_colour w w = [2, 2, 2, 2, 2]) := by
  constructor
  · intro guess solution hg hs
    unfold wordle_colour refColour
    rw [refPass1_eq_pass1]
    exact pass2_eq_refPass2 guess solution _ (hg.trans hs.symm)
  · intro w hw
    unfold wordle_colour
    rw [pass1_self]
    simp only
    rw [pass2_green, hw]
    rfl

/-- Witness for C1 at the concrete pair CRANE/TRACE and at TRACE/TRACE. -/
theorem C1_wordle_colour_matches_reference_witness :
    wordle_colour ['c', 'r', 'a', 'n', 'e'] ['t', 'r', 'a', 'c', 'e']
      = refColour ['c', 'r', 'a', 'n', 'e'] ['t', 'r', 'a', 'c', 'e'] ∧
    wordle_colour ['t', 'r', 'a', 'c', 'e'] ['t', 'r', 'a', 'c', 'e'] = [2, 2, 2, 2, 2] :=
  ⟨C1_wordle_colour_matches_reference.1 _ _ rfl rfl,
   C1_wordle_colour_matches_reference.2 _ rfl⟩

/-! ## Claim C5: the CRANE/TRACE example -/

/-- C5 counterexample: the colouring of guess CRANE against solution TRACE
is not `[0, 2, 1, 1, 2]` as the claim states. -/
theorem C5_counterexample :
    wordle_colour ['c', 'r', 'a', 'n', 'e'] ['t', 'r', 'a', 'c', 'e'] ≠ [0, 2, 1, 1, 2] := by
  decide

/-- C5 (amended): the colouring of guess CRANE against solution TRACE is
`[1, 2, 2, 0, 2]`, i.e. [YELLOW, GREEN, GREEN, GREY, GREEN]: C is yellow
(C occurs at another position of TRACE), R, A, E are green, N is grey. -/
theorem C5_crane_trace_colouring :
    wordle_colour ['c', 'r', 'a', 'n', 'e'] ['t', 'r', 'a', 'c', 'e'] = [1, 2, 2, 0, 2] := by
  decide

/-! ## Claim C9: the ternary codec is a bijection on the valid range -/

/-- C9: `numtoternary (ternarytonum c) = c` for every length-5 colouring
with tile values below 3, and `ternarytonum (numtoternary n) = n` for
every `n < 3 ^ 5 = 243`. -/
theorem C9_ternary_codec_bijection :
    (∀ c : List Nat, c.length = 5 → (∀ d ∈ c, d < 3) →
      numtoternary (ternarytonum c) = c) ∧
    (∀ n : Nat, n < 243 → ternarytonum (numtoternary n) = n) := by
  have part2 : ∀ n : Nat, n < 243 → ternarytonum (numtoternary n) = n := by
    set_option maxRecDepth 10000 in decide
  refine ⟨?_, part2⟩
  intro c hlen hdig
  obtain ⟨a, b, d, e, f, rfl⟩ : ∃ a b d e f, c = [a, b, d, e, f] := by
    match c, hlen with
    | [a, b, d, e, f], _ => exact ⟨a, b, d, e, f, rfl⟩
  have ha := hdig a (by simp)
  have hb := hdig b (by simp)
  have hd := hdig d (by simp)
  have he := hdig e (by simp)
  have hf := hdig f (by simp)
  have hn : ternarytonum [a, b, d, e, f] < 243 := by
    simp [ternarytonum, tern_acc]
    omega
  have hround := part2 _ hn
  have hlen5 : (numtoternary (ternarytonum [a, b, d, e, f])).length = 5 :=
    numtoternary_length _ hn
  have hdig5 := numtoternary_digits_lt3 (ternarytonum [a, b, d, e, f])
  obtain ⟨p, q, r, s, t, hpq⟩ : ∃ p q r s t,
      numtoternary (ternarytonum [a, b, d, e, f]) = [p, q, r, s, t] := by
    match hx : numtoternary (ternarytonum [a, b, d, e, f]), hlen5 with
    | [p, q, r, s, t], _ => exact ⟨p, q, r, s, t, rfl⟩
  rw [hpq] at hround hdig5
  have hp := hdig5 p (by simp)
  have hq := hdig5 q (by simp)
  have hr := hdig5 r (by simp)
  have hs := hdig5 s (by simp)
  have ht := hdig5 t (by simp)
  rw [hpq]
  simp [ternarytonum, tern_acc] at hround
  have : p = a ∧ q = b ∧ r = d ∧ s = e ∧ t = f := by omega
  simp [this.1, this.2.1, this.2.2.1, this.2.2.2.1, this.2.2.2.2]

/-- Witness for C9 at the colouring `[0, 2, 1, 1, 2]` and the number 134. -/
theorem C9_ternary_codec_bijection_witness :
    numtoternary (ternarytonum [0, 2, 1, 1, 2]) = [0, 2, 1, 1, 2] ∧
    ternarytonum (numtoternary 134) = 134 :=
  ⟨C9_ternary_codec_bijection.1 _ rfl (by decide),
   C9_ternary_codec_bijection.2 134 (by norm_num)⟩

/-! ## The feedback table builder -/

/-- The dictionary update of `get_table`: append `g` to `table[key]`,
creating a singleton bucket when the key is absent. -/
def table_insert (t : Table) (key : Word × Nat) (g : Word) : Table :=
  fun k => if k = key then some ((t key).getD [] ++ [g]) else t k

/-- The body of the inner `for guess in ext_words` loop of `get_table`. -/
def table_step (sol : Word) (t : Table) (guess : Word) : Table :=
  if sol ≠ guess then
    table_insert t (sol, ternarytonum (wordle_colour guess sol)) guess
  else t

/-- `get_table(words, ext_words)`: for every ordered pair of distinct words
drawn from `ext_words`, append the guess to the bucket of
`(sol, ternarytonum (wordle_colour guess sol))`.  As in the source, the
outer (solution) loop also runs over `ext_words` and the `words`
parameter is unused. -/
def get_table (words ext_words : List Word) : Table :=
  ext_words.foldl (fun t sol => ext_words.foldl (table_step sol) t) (fun _ => none)

/-- The bucket stored at key `k`, empty when the key is absent. -/
def bucket (t : Table) (k : Word × Nat) : List Word :=
  (t k).getD []

/-- The membership test of the claim: `guess` belongs in the bucket of
`(sol, c)` exactly when it is distinct from `sol` and colours to `c`. -/
def bucket_pred (sol : Word) (c : Nat) (g : Word) : Bool :=
  decide (sol ≠ g ∧ ternarytonum (wordle_colour g sol) = c)

theorem table_insert_other (t : Table) (key k : Word × Nat) (g : Word) (h : k ≠ key) :
    table_insert t key g k = t k := by
  simp [table_insert, h]

theorem inner_fold_other : ∀ (gs : List Word) (t : Table) (sol : Word) (k : Word × Nat),
    k.1 ≠ sol → (gs.foldl (table_step sol) t) k = t k := by
  intro gs
  induction gs with
  | nil => intro t sol k _; rfl
  | cons g gs ih =>
    intro t sol k hk
    simp only [List.foldl_cons]
    rw [ih _ sol k hk]
    unfold table_step
    by_cases hsg : sol = g
    · simp [hsg]
    · simp only [hsg, ne_eq, not_false_iff, if_true]
      exact table_insert_other t _ k g (by intro he; exact hk (by rw [he]))

theorem inner_fold_bucket : ∀ (gs : List Word) (t : Table) (sol : Word) (c : Nat),
    bucket ((gs.foldl (table_step sol) t)) (sol, c)
      = bucket t (sol, c) ++ gs.filter (bucket_pred sol c) := by
  intro gs
  induction gs with
  | nil => intro t sol c; simp
  | cons g gs ih =>
    intro t sol c
    simp only [List.foldl_cons]
    rw [ih]
    unfold table_step
    by_cases hsg : sol = g
    · have hfp : bucket_pred sol c g = false := by
        simp [bucket_pred, hsg]
      rw [List.filter_cons_of_neg (by simp [hfp])]
      simp [hsg]
    · simp only [hsg, ne_eq, not_false_iff, if_true]
      by_cases hc : ternarytonum (wordle_colour g sol) = c
      · have hpred : bucket_pred sol c g = true := by
          simp [bucket_pred, hsg, hc]
        rw [List.filter_cons_of_pos hpred]
        have : bucket (table_insert t (sol, ternarytonum (wordle_colour g sol)) g) (sol, c)
            = bucket t (sol, c) ++ [g] := by
          simp [bucket, table_insert, hc]
        rw [this]
        simp
      · have hpred : bucket_pred sol c g = false := by
          simp [bucket_pred, hc]
        rw [List.filter_cons_of_neg (by simp [hpred])]
        have : bucket (table_insert t (sol, ternarytonum (wordle_colour g sol)) g) (sol, c)
            = bucket t (sol, c) := by
          have : ((sol, c) : Word × Nat) ≠ (sol, ternarytonum (wordle_colour g sol)) := by
            intro he
            exact hc (by injection he with h1 h2; exact h2.symm)
          simp [bucket, table_insert_other t _ _ g this]
        rw [this]

theorem outer_fold_other : ∀ (sols : List Word) (ext : List Word) (t : Table) (k : Word × Nat),
    k.1 ∉ sols →
    (sols.foldl (fun t sol => ext.foldl (table_step sol) t) t) k = t k := by
  intro sols
  induction sols with
  | nil => intro ext t k _; rfl
  | cons s sols ih =>
    intro ext t k hk
    simp only [List.mem_cons, not_or] at hk
    simp only [List.foldl_cons]
    rw [ih ext _ k hk.2, inner_fold_other ext t s k hk.1]

theorem bucket_congr {t1 t2 : Table} {k : Word × Nat} (h : t1 k = t2 k) :
    bucket t1 k = bucket t2 k := by
  simp [bucket, h]

theorem count_one_of_nodup {α : Type} [BEq α] [LawfulBEq α] :
    ∀ {l : List α} {a : α}, l.Nodup → a ∈ l → l.count a = 1 := by
  intro l
  induction l with
  | nil => intro a _ ha; simp at ha
  | cons b t ih =>
    intro a hnd ha
    simp only [List.nodup_cons] at hnd
    by_cases hab : a = b
    · subst hab
      have : t.count a = 0 := List.count_eq_zero.2 hnd.1
      simp [List.count_cons, this]
    · rcases List.mem_cons.1 ha with h | h
      · exact absurd h hab
      · simp [List.count_cons, hab, ih hnd.2 h]

theorem get_table_bucket : ∀ (sols ext : List Word) (t : Table) (sol : Word) (c : Nat),
    sols.Nodup → sol ∈ sols →
    bucket ((sols.foldl (fun t s => ext.foldl (table_step s) t) t)) (sol, c)
      = bucket t (sol, c) ++ ext.filter (bucket_pred sol c) := by
  intro sols
  induction sols with
  | nil => intro ext t sol c _ h; simp at h
  | cons s sols ih =>
    intro ext t sol c hnd hmem
    simp only [List.nodup_cons] at hnd
    simp only [List.foldl_cons]
    rcases List.mem_cons.1 hmem with rfl | hmem'
    · rw [bucket_congr (outer_fold_other sols ext _ (sol, c) hnd.1)]
      exact inner_fold_bucket ext t sol c
    · rw [ih ext _ sol c hnd.2 hmem']
      have hne : sol ≠ s := by
        intro he; rw [he] at hmem'; exact hnd.1 hmem'
      rw [bucket_congr (inner_fold_other ext t s (sol, c) hne)]

/-! ## Claim C2: completeness and uniqueness of the feedback table -/

/-- C2: for a duplicate-free extended lexicon containing the lexicon, every
pair (solution ∈ lexicon, guess ∈ extended lexicon, guess ≠ solution) is
recorded exactly once: `guess` occurs once in the bucket of
`(solution, ternarytonum (wordle_colour guess solution))`, and in no other
bucket of that solution. -/
theorem C2_feedback_table_complete (words ext : List Word) (sol guess : Word)
    (hnd : ext.Nodup) (hsub : words ⊆ ext) (hsol : sol ∈ words) (hguess : guess ∈ ext)
    (hne : guess ≠ sol) :
    List.count guess
        (bucket (get_table words ext) (sol, ternarytonum (wordle_colour guess sol))) = 1 ∧
    ∀ c : Nat, c ≠ ternarytonum (wordle_colour guess sol) →
      guess ∉ bucket (get_table words ext) (sol, c) := by
  have hsolext : sol ∈ ext := hsub hsol
  constructor
  · rw [show get_table words ext
        = ext.foldl (fun t s => ext.foldl (table_step s) t) (fun _ => none) from rfl]
    rw [get_table_bucket ext ext _ sol _ hnd hsolext]
    have hempty : bucket (fun _ => none) (sol, ternarytonum (wordle_colour guess sol)) = [] := rfl
    rw [hempty, List.nil_append]
    have hpred : bucket_pred sol (ternarytonum (wordle_colour guess sol)) guess = true := by
      simp [bucket_pred, Ne.symm hne]
    rw [List.count_filter hpred]
    exact count_one_of_nodup hnd hguess
  · intro c hc hmem
    rw [show get_table words ext
        = ext.foldl (fun t s => ext.foldl (table_step s) t) (fun _ => none) from rfl] at hmem
    rw [get_table_bucket ext ext _ sol c hnd hsolext] at hmem
    have hempty : bucket (fun _ => none) (sol, c) = [] := rfl
    rw [hempty, List.nil_append] at hmem
    have := (List.mem_filter.1 hmem).2
    simp [bucket_pred] at this
    exact hc this.2.symm

/-- Witness for C2 on the lexicon [CRANE] with extended lexicon
[CRANE, TRACE]. -/
theorem C2_feedback_table_complete_witness :
    List.count ['t', 'r', 'a', 'c', 'e']
        (bucket (get_table [['c', 'r', 'a', 'n', 'e']]
            [['c', 'r', 'a', 'n', 'e'], ['t', 'r', 'a', 'c', 'e']])
          (['c', 'r', 'a', 'n', 'e'],
            ternarytonum (wordle_colour ['t', 'r', 'a', 'c', 'e'] ['c', 'r', 'a', 'n', 'e']))) = 1 ∧
    ['t', 'r', 'a', 'c', 'e'] ∉
      bucket (get_table [['c', 'r', 'a', 'n', 'e']]
          [['c', 'r', 'a', 'n', 'e'], ['t', 'r', 'a', 'c', 'e']])
        (['c', 'r', 'a', 'n', 'e'], 7) :=
  ⟨(C2_feedback_table_complete [['c', 'r', 'a', 'n', 'e']]
      [['c', 'r', 'a', 'n', 'e'], ['t', 'r', 'a', 'c', 'e']]
      ['c', 'r', 'a', 'n', 'e'] ['t', 'r', 'a', 'c', 'e']
      (by decide) (by decide) (by decide) (by decide) (by decide)).1,
   (C2_feedback_table_complete [['c', 'r', 'a', 'n', 'e']]
      [['c', 'r', 'a', 'n', 'e'], ['t', 'r', 'a', 'c', 'e']]
      ['c', 'r', 'a', 'n', 'e'] ['t', 'r', 'a', 'c', 'e']
      (by decide) (by decide) (by decide) (by decide) (by decide)).2 7 (by decide)⟩

/-! ## Puzzle extension: the row filter and its rules -/

/-- `is_sublist(sub, full)`: every element of `sub` is removed in turn from
a working copy of `full`; fails as soon as one is missing.  (The Python
version mutates `full` in place; its callers always pass a fresh list.) -/
def is_sublist {α : Type} [DecidableEq α] : List α → List α → Bool
  | [], _ => true
  | e :: rest, full => if e ∈ full then is_sublist rest (full.erase e) else false

/-- `aligned(letter, index, words)`: whether the letter appears at the given
position of some previous word. -/
def aligned (letter : Char) (index : Nat) (words : List Word) : Bool :=
  words.any (fun word => word.getD index ' ' = letter)

/-- `get_nongreys(word, coln)`: the letters of `word` on non-grey tiles of
the colouring `numtoternary coln`, in order. -/
def get_nongreys (word : Word) (coln : Nat) : List Char :=
  word.enum.foldl
    (fun nongreys p =>
      if (numtoternary coln).getD p.1 0 ≠ 0 then nongreys ++ [p.2] else nongreys)
    []

/-- One row of `get_greys`: walk the word and append to `greys` every letter
on a grey tile of that row's colouring that is not already recorded. -/
def greys_row (greys : List Char) (word : Word) (coln : Nat) : List Char :=
  word.enum.foldl
    (fun gs p =>
      if (numtoternary coln).getD p.1 0 = 0 ∧ p.2 ∉ gs then gs ++ [p.2] else gs)
    greys

/-- `get_greys(words, nums)`: all letters that sat on a grey tile in any
previous row (each row read under its own colouring). -/
def get_greys (words : List Word) (nums : List Nat) : List Char :=
  (words.zip nums).foldl (fun gs wc => greys_row gs wc.1 wc.2) []

/-- The position loop of `is_good_word` over `enumerate(word)`: `none`
models the early `return False` of rules 1 and 2; `some nongreys` models
falling through the loop with the accumulated non-grey letters. -/
def good_scan : List (Nat × Char) → List Nat → List Char → List Word → List Char →
    Option (List Char)
  | [], _, _, _, nongreys => some nongreys
  | (index, letter) :: rest, col, greys, words, nongreys =>
    if col.getD index 0 = 0 then
      if letter ∈ greys then none
      else if aligned letter index words then none
      else good_scan rest col greys words nongreys
    else
      if col.getD index 0 = 1 ∧ aligned letter index words then none
      else good_scan rest col greys words (nongreys ++ [letter])

/-- `is_good_word(word, col, greys, words, prevword, prevcoln)`: rules 1 and
2 via the scan, then rule 3: the collected non-greys must be a sublist of
the previous row's non-greys. -/
def is_good_word (word : Word) (col : List Nat) (greys : List Char) (words : List Word)
    (prevword : Word) (prevcoln : Nat) : Bool :=
  match good_scan word.enum col greys words [] with
  | none => false
  | some nongreys => is_sublist nongreys (get_nongreys prevword prevcoln)

/-- `filter_colour(coln, greys, words, nums, table)`: look the bucket of
`(words[0], coln)` up (an absent key gives the empty list) and keep the
words that satisfy `is_good_word`; `words[::-1][0]` is the last word and
`nums[len(words) - 1]` the previous row's colouring. -/
def filter_colour (coln : Nat) (greys : List Char) (words : List Word) (nums : List Nat)
    (table : Table) : List Word :=
  match table (words.headD [], coln) with
  | none => []
  | some fwords =>
    fwords.filter (fun word =>
      is_good_word word (numtoternary coln) greys words (words.getLastD [])
        (nums.getD (words.length - 1) 0))

/-- `extend_puzzle(prevwords, nums, table)`: the candidates for the next
row, with colouring `nums[len(prevwords)]` and the greys collected from
all previous rows. -/
def extend_puzzle (prevwords : List Word) (nums : List Nat) (table : Table) : List Word :=
  filter_colour (nums.getD prevwords.length 0) (get_greys prevwords nums) prevwords nums table

/-! ## Claim C10: `is_sublist` decides sub-multiset containment -/

/-- C10: `is_sublist sub full` returns `true` exactly when every element of
`sub`, counted with multiplicity, also occurs in `full`: `sub` is a
sub-multiset of `full`.  In particular [A, A] is contained in [A, A, B]
but not in [A, B]. -/
theorem C10_is_sublist_iff_submultiset :
    (∀ {α : Type} [DecidableEq α] (sub full : List α),
      is_sublist sub full = true ↔ ∀ a : α, sub.count a ≤ full.count a) ∧
    is_sublist ['a', 'a'] ['a', 'a', 'b'] = true ∧
    is_sublist ['a', 'a'] ['a', 'b'] = false := by
  refine ⟨?_, by decide, by decide⟩
  intro α _ sub
  induction sub with
  | nil => intro full; simp [is_sublist]
  | cons e rest ih =>
    intro full
    by_cases he : e ∈ full
    · rw [show is_sublist (e :: rest) full = is_sublist rest (full.erase e) by
        simp [is_sublist, he]]
      rw [ih (full.erase e)]
      constructor
      · intro h a
        have hh := h a
        rw [List.count_erase] at hh
        have hfe : 1 ≤ full.count e := List.count_pos_iff.2 he
        by_cases hae : a = e
        · subst hae
          simp only [List.count_cons_self]
          simp at hh
          omega
        · rw [List.count_cons_of_ne hae]
          simp [hae, Ne.symm hae] at hh
          omega
      · intro h a
        have hh := h a
        rw [List.count_erase]
        by_cases hae : a = e
        · subst hae
          simp only [List.count_cons_self] at hh
          simp
          omega
        · rw [List.count_cons_of_ne hae] at hh
          simp [hae, Ne.symm hae]
          omega
    · rw [show is_sublist (e :: rest) full = false by simp [is_sublist, he]]
      simp only [Bool.false_eq_true, false_iff, not_forall]
      refine ⟨e, ?_⟩
      simp [List.count_cons_self, List.count_eq_zero.2 he]

/-! ## Helper lemmas for the row filter -/

theorem mem_enum_getD (w : List Char) (i : Nat) (h : i < w.length) :
    (i, w.getD i ' ') ∈ w.enum := by
  rw [List.mk_mem_enum_iff_getElem?]
  rw [List.getElem?_eq_getElem h, List.getD_eq_getElem w ' ' h]

theorem mem_zip_getD : ∀ (ws : List Word) (ns : List Nat) (j : Nat),
    j < ws.length → j < ns.length → (ws.getD j [], ns.getD j 0) ∈ ws.zip ns := by
  intro ws
  induction ws with
  | nil => intro ns j h _; simp at h
  | cons w ws ih =>
    intro ns j hj hn
    cases ns with
    | nil => simp at hn
    | cons n ns =>
      match j with
      | 0 => simp
      | j + 1 =>
        simp only [List.zip_cons_cons, List.getD_cons_succ, List.mem_cons]
        right
        exact ih ns j (by simpa using hj) (by simpa using hn)

theorem foldl_mem_preserve {β : Type} (f : List Char → β → List Char)
    (hmono : ∀ gs x, gs ⊆ f gs x) :
    ∀ (l : List β) (gs : List Char) (a : Char), a ∈ gs → a ∈ l.foldl f gs := by
  intro l
  induction l with
  | nil => intro gs a ha; simpa using ha
  | cons x l ih => intro gs a ha; exact ih (f gs x) a (hmono gs x ha)

theorem foldl_mem_of_elem {β : Type} (f : List Char → β → List Char)
    (hmono : ∀ gs x, gs ⊆ f gs x) :
    ∀ (l : List β) (x : β) (a : Char), x ∈ l → (∀ gs, a ∈ f gs x) →
      ∀ gs, a ∈ l.foldl f gs := by
  intro l
  induction l with
  | nil => intro x a hx _ gs; simp at hx
  | cons y l ih =>
    intro x a hx hstep gs
    rcases List.mem_cons.1 hx with rfl | hx'
    · exact foldl_mem_preserve f hmono l (f gs x) a (hstep gs)
    · exact ih x a hx' hstep (f gs y)

theorem grey_step_mono (P : Prop) [Decidable P] (gs : List Char) (b : Char) :
    gs ⊆ if P then gs ++ [b] else gs := by
  split
  · exact fun a ha => List.mem_append_left _ ha
  · exact fun a ha => ha

theorem grey_step_mem (P : Prop) [Decidable P] (gs : List Char) (b : Char) (h : P) :
    b ∈ if P ∧ b ∉ gs then gs ++ [b] else gs := by
  split
  · simp
  · next hn =>
    rw [not_and] at hn
    have := hn h
    rw [not_not] at this
    exact this

theorem greys_row_mono (gs : List Char) (w : Word) (c : Nat) : gs ⊆ greys_row gs w c := by
  intro a ha
  unfold greys_row
  exact foldl_mem_preserve _
    (fun gs p => grey_step_mono ((numtoternary c).getD p.1 0 = 0 ∧ p.2 ∉ gs) gs p.2)
    w.enum gs a ha

theorem greys_row_mem (gs : List Char) (w : Word) (c : Nat) (k : Nat)
    (hk : k < w.length) (hgrey : (numtoternary c).getD k 0 = 0) :
    w.getD k ' ' ∈ greys_row gs w c := by
  unfold greys_row
  refine foldl_mem_of_elem _
    (fun gs p => grey_step_mono ((numtoternary c).getD p.1 0 = 0 ∧ p.2 ∉ gs) gs p.2) w.enum
    (k, w.getD k ' ') _ (mem_enum_getD w k hk) ?_ gs
  intro gs2
  exact grey_step_mem _ gs2 _ hgrey

theorem get_greys_mem (words : List Word) (nums : List Nat) (j k : Nat)
    (hjw : j < words.length) (hjn : j < nums.length)
    (hk : k < (words.getD j []).length)
    (hgrey : (numtoternary (nums.getD j 0)).getD k 0 = 0) :
    (words.getD j []).getD k ' ' ∈ get_greys words nums := by
  unfold get_greys
  refine foldl_mem_of_elem _ ?_ (words.zip nums) (words.getD j [], nums.getD j 0) _
    (mem_zip_getD words nums j hjw hjn) ?_ []
  · intro gs wc
    exact greys_row_mono gs wc.1 wc.2
  · intro gs
    exact greys_row_mem gs _ _ k hk hgrey

theorem good_scan_nongreys : ∀ (l : List (Nat × Char)) (col : List Nat) (greys : List Char)
    (words : List Word) (acc ng : List Char),
    good_scan l col greys words acc = some ng →
    ng = l.foldl (fun a p => if col.getD p.1 0 ≠ 0 then a ++ [p.2] else a) acc := by
  intro l
  induction l with
  | nil => intro col greys words acc ng h; simpa [good_scan] using h.symm
  | cons p l ih =>
    intro col greys words acc ng h
    obtain ⟨index, letter⟩ := p
    simp only [good_scan] at h
    by_cases hc : col.getD index 0 = 0
    · rw [if_pos hc] at h
      by_cases h1 : letter ∈ greys
      · rw [if_pos h1] at h; exact absurd h (by simp)
      · rw [if_neg h1] at h
        by_cases h2 : aligned letter index words = true
        · rw [if_pos h2] at h; exact absurd h (by simp)
        · rw [if_neg h2] at h
          simp only [List.foldl_cons, hc, ne_eq, not_true_eq_false, if_neg, not_not]
          rw [if_neg (by simp [hc])]
          exact ih col greys words acc ng h
    · rw [if_neg hc] at h
      by_cases h2 : col.getD index 0 = 1 ∧ aligned letter index words = true
      · rw [if_pos h2] at h; exact absurd h (by simp)
      · rw [if_neg h2] at h
        simp only [List.foldl_cons]
        rw [if_pos (by simpa using hc)]
        exact ih col greys words _ ng h

theorem good_scan_grey_not_exhausted : ∀ (l : List (Nat × Char)) (col : List Nat)
    (greys : List Char) (words : List Word) (acc ng : List Char),
    good_scan l col greys words acc = some ng →
    ∀ p ∈ l, col.getD p.1 0 = 0 → p.2 ∉ greys := by
  intro l
  induction l with
  | nil => intro col greys words acc ng _ p hp; simp at hp
  | cons q l ih =>
    intro col greys words acc ng h p hp hc
    obtain ⟨index, letter⟩ := q
    simp only [good_scan] at h
    rcases List.mem_cons.1 hp with rfl | hp'
    · rw [if_pos hc] at h
      intro hmem
      rw [if_pos hmem] at h
      exact absurd h (by simp)
    · by_cases hq : col.getD index 0 = 0
      · rw [if_pos hq] at h
        by_cases h1 : letter ∈ greys
        · rw [if_pos h1] at h; exact absurd h (by simp)
        · rw [if_neg h1] at h
          by_cases h2 : aligned letter index words = true
          · rw [if_pos h2] at h; exact absurd h (by simp)
          · rw [if_neg h2] at h
            exact ih col greys words acc ng h p hp' hc
      · rw [if_neg hq] at h
        by_cases h2 : col.getD index 0 = 1 ∧ aligned letter index words = true
        · rw [if_pos h2] at h; exact absurd h (by simp)
        · rw [if_neg h2] at h
          exact ih col greys words _ ng h p hp' hc

theorem filter_colour_mem (coln : Nat) (greys : List Char) (words : List Word)
    (nums : List Nat) (table : Table) (word : Word)
    (h : word ∈ filter_colour coln greys words nums table) :
    (∃ l, table (words.headD [], coln) = some l ∧ word ∈ l) ∧
    is_good_word word (numtoternary coln) greys words (words.getLastD [])
      (nums.getD (words.length - 1) 0) = true := by
  unfold filter_colour at h
  cases htab : table (words.headD [], coln) with
  | none => rw [htab] at h; simp at h
  | some fwords =>
    rw [htab] at h
    simp only at h
    have := List.mem_filter.1 h
    exact ⟨⟨fwords, rfl, this.1⟩, this.2⟩

theorem is_good_word_scan (word : Word) (col : List Nat) (greys : List Char)
    (words : List Word) (prevword : Word) (prevcoln : Nat)
    (h : is_good_word word col greys words prevword prevcoln = true) :
    ∃ ng, good_scan word.enum col greys words [] = some ng ∧
      is_sublist ng (get_nongreys prevword prevcoln) = true := by
  unfold is_good_word at h
  cases hscan : good_scan word.enum col greys words [] with
  | none => rw [hscan] at h; simp at h
  | some ng =>
    rw [hscan] at h
    exact ⟨ng, rfl, h⟩

/-! ## Claim C8: candidates come from the bottom-row bucket only -/

/-- C8: for a non-empty stack the row filter reads exactly the bucket of
`(stack[0], nums[len stack])` — the bottom-row word — returning the empty
list when the key is absent, and returning only members of that bucket. -/
theorem C8_lookup_is_bottom_row_bucket (stack : List Word) (nums : List Nat)
    (table : Table) (hne : stack ≠ []) :
    (table (stack.headD [], nums.getD stack.length 0) = none →
      extend_puzzle stack nums table = []) ∧
    (∀ w, w ∈ extend_puzzle stack nums table →
      ∃ l, table (stack.headD [], nums.getD stack.length 0) = some l ∧ w ∈ l) := by
  constructor
  · intro habs
    unfold extend_puzzle filter_colour
    rw [habs]
  · intro w hw
    exact (filter_colour_mem _ _ _ _ _ _ hw).1

/-- Witness for C8: an absent key yields the empty candidate list, and with
the key present every candidate is a member of the stored bucket. -/
theorem C8_lookup_is_bottom_row_bucket_witness :
    extend_puzzle [['a']] [0, 0] (fun _ => none) = [] ∧
    ∃ l, (fun k => if k = (['a'], 0) then some [['b']] else none : Table) (['a'], 0) = some l ∧
      ['b'] ∈ l :=
  ⟨(C8_lookup_is_bottom_row_bucket [['a']] [0, 0] (fun _ => none) (by decide)).1 rfl,
   (C8_lookup_is_bottom_row_bucket [['a']] [0, 0]
      (fun k => if k = (['a'], 0) then some [['b']] else none) (by decide)).2 ['b'] (by decide)⟩

/-! ## Claim C7: rule 3 compares against the immediately preceding row -/

/-- C7: every word the row filter accepts has its non-grey letters (under
the new row's colouring) a sub-multiset of the non-grey letters of the
topmost stack word under that row's own colouring,
`nums[len(words) - 1]`; for a stack of length 1 these are `stack[0]` and
`nums[0]`. -/
theorem C7_containment_against_previous_row (coln : Nat) (greys : List Char)
    (words : List Word) (nums : List Nat) (table : Table) (word : Word)
    (hne : words ≠ []) (hmem : word ∈ filter_colour coln greys words nums table) :
    is_sublist (get_nongreys word coln)
      (get_nongreys (words.getLastD []) (nums.getD (words.length - 1) 0)) = true := by
  have hgood := (filter_colour_mem _ _ _ _ _ _ hmem).2
  obtain ⟨ng, hscan, hsub⟩ := is_good_word_scan _ _ _ _ _ _ hgood
  have hng := good_scan_nongreys _ _ _ _ _ _ hscan
  have : get_nongreys word coln = ng := by
    rw [hng]; rfl
  rw [this]
  exact hsub

/-- Witness for C7 on a one-row stack. -/
theorem C7_containment_against_previous_row_witness :
    is_sublist (get_nongreys ['b'] 0) (get_nongreys (List.getLastD [['a']] []) ([0, 0].getD 0 0))
      = true :=
  C7_containment_against_previous_row 0 ['a'] [['a']] [0, 0]
    (fun k => if k = (['a'], 0) then some [['b']] else none) ['b'] (by decide) (by decide)

/-! ## Claim C6: grey exhaustion is preserved along the search -/

/-- C6: a word accepted by the row filter never places, on a grey tile of
the new row, a letter that sat on a grey tile of any earlier row (each row
read under its own target colouring). -/
theorem C6_grey_exhaustion_preserved (stack : List Word) (nums : List Nat) (table : Table)
    (w : Word) (i j k : Nat) (hne : stack ≠ []) (hsn : stack.length < nums.length)
    (hw : w ∈ extend_puzzle stack nums table) (hi : i < w.length)
    (hgrey : (numtoternary (nums.getD stack.length 0)).getD i 0 = 0)
    (hj : j < stack.length) (hk : k < (stack.getD j []).length)
    (hrowgrey : (numtoternary (nums.getD j 0)).getD k 0 = 0) :
    (stack.getD j []).getD k ' ' ≠ w.getD i ' ' := by
  unfold extend_puzzle at hw
  have hgood := (filter_colour_mem _ _ _ _ _ _ hw).2
  obtain ⟨ng, hscan, _⟩ := is_good_word_scan _ _ _ _ _ _ hgood
  have hnot := good_scan_grey_not_exhausted _ _ _ _ _ _ hscan
    (i, w.getD i ' ') (mem_enum_getD w i hi) hgrey
  have hin : (stack.getD j []).getD k ' ' ∈ get_greys stack nums :=
    get_greys_mem stack nums j k hj (Nat.lt_trans hj hsn) hk hrowgrey
  intro heq
  rw [heq] at hin
  exact hnot hin

/-- Witness for C6: with row 0 all-grey on word "a", the accepted word "b"
places a different letter on the grey tile of row 1. -/
theorem C6_grey_exhaustion_preserved_witness :
    (List.getD [['a']] 0 []).getD 0 ' ' ≠ (['b'] : Word).getD 0 ' ' :=
  C6_grey_exhaustion_preserved [['a']] [0, 0]
    (fun k => if k = (['a'], 0) then some [['b']] else none) ['b'] 0 0 0
    (by decide) (by decide) (by decide) (by decide) (by decide) (by decide) (by decide) (by decide)

/-! ## The recursive backtracker -/

/-- `recursive_backtracker(selected, options, nums, table)`, with an
explicit bound `fuel` on the recursion depth (each call adds one row, so
any bound larger than the puzzle height reproduces the Python recursion).
The Python function returns the collected solutions only when the list is
non-empty and otherwise falls off the end returning `None`, modelled by
`Option`; the caller's `if res != None: solutions += res` is the `match`. -/
def recursive_backtracker : Nat → List Word → List Word → List Nat → Table →
    Option (List (List Word))
  | 0, _, _, _, _ => none
  | fuel + 1, selected, options, nums, table =>
    if (selected.length : Int) = (nums.length : Int) - 1 ∧ options ≠ [] then
      some (options.map (fun option => selected ++ [option]))
    else
      let solutions := options.foldl
        (fun sols word =>
          match recursive_backtracker fuel (selected ++ [word])
              (extend_puzzle (selected ++ [word]) nums table) nums table with
          | some res => sols ++ res
          | none => sols)
        []
      if solutions ≠ [] then some solutions else none

/-- `solve_function(options, nums, table)`: run the backtracker from the
empty stack. -/
def solve_function (fuel : Nat) (options : List Word) (nums : List Nat) (table : Table) :
    Option (List (List Word)) :=
  recursive_backtracker fuel [] options nums table

/-! ## Claim C3: the terminal accepting case -/

/-- C3: one row short of full height with a non-empty option set, the
backtracker emits `selected + [option]` for every option — a complete
stack of height `len nums` — without filtering them or recursing. -/
theorem C3_terminal_accepts_all_options (fuel : Nat) (selected options : List Word)
    (nums : List Nat) (table : Table)
    (hlen : (selected.length : Int) = (nums.length : Int) - 1) (hopt : options ≠ []) :
    recursive_backtracker (fuel + 1) selected options nums table
      = some (options.map (fun option => selected ++ [option])) ∧
    ∀ s ∈ options.map (fun option => selected ++ [option]), s.length = nums.length := by
  constructor
  · unfold recursive_backtracker
    rw [if_pos ⟨hlen, hopt⟩]
  · intro s hs
    obtain ⟨o, _, rfl⟩ := List.mem_map.1 hs
    have : selected.length + 1 = nums.length := by omega
    simp [this]

/-- Witness for C3 at height 2 with one option and no recursion budget
(`fuel = 0`), showing the terminal case needs neither the filter nor a
recursive call. -/
theorem C3_terminal_accepts_all_options_witness :
    recursive_backtracker 1 [['a']] [['b']] [0, 0] (fun _ => none)
      = some [[['a'], ['b']]] :=
  (C3_terminal_accepts_all_options 0 [['a']] [['b']] [0, 0] (fun _ => none)
    (by decide) (by decide)).1

/-! ## Claim C4: exhaustion is reported as None, not as an empty list -/

theorem recursive_backtracker_ne_some_nil :
    ∀ (fuel : Nat) (selected options : List Word) (nums : List Nat) (table : Table),
      recursive_backtracker fuel selected options nums table ≠ some [] := by
  intro fuel selected options nums table
  match fuel with
  | 0 => simp [recursive_backtracker]
  | fuel + 1 =>
    unfold recursive_backtracker
    by_cases hterm : (selected.length : Int) = (nums.length : Int) - 1 ∧ options ≠ []
    · rw [if_pos hterm]
      intro h
      have := Option.some.inj h
      exact hterm.2 (List.map_eq_nil_iff.1 this)
    · rw [if_neg hterm]
      simp only
      split
      · next hsols => intro h; exact hsols (Option.some.inj h)
      · simp

/-- C4 counterexample: on a puzzle with no satisfying stack (the table has
no entries at all) the solver returns `none` — Python's `None`, a
distinguished no-result value — and not the empty solution list. -/
theorem C4_counterexample :
    solve_function 5 [['a']] [0, 0] (fun _ => none) = none ∧
    solve_function 5 [['a']] [0, 0] (fun _ => none) ≠ some [] := by
  constructor
  · rfl
  · intro h
    exact Option.noConfusion (h.symm.trans (by rfl))

/-- C4 (amended): when the search finds no complete stack the entry point
returns `None` (modelled `none`); it never returns the empty solution
list, so an empty Solution Set is signalled by `none` rather than by `[]`. -/
theorem C4_exhaustion_returns_none :
    ∀ (fuel : Nat) (options : List Word) (nums : List Nat) (table : Table),
      solve_function fuel options nums table ≠ some [] := by
  intro fuel options nums table
  exact recursive_backtracker_ne_some_nil fuel [] options nums table
